import Mathlib

/-!
Shallow embedding of `src/stock.py`: a deterministic in-memory limit-order
matching simulator.  The order book is an array of `NUM_TICKERS` slots, each
holding a pair of lists (buy orders, sell orders).  `addOrder` appends an
order to the relevant side and stably re-sorts that side by price (descending
for bids, ascending for asks, mirroring Python's stable `list.sort` with key
`-price` resp. `price`), then runs `matchOrder`, which repeatedly crosses the
best bid against the best ask while `best_buy.price >= best_sell.price`,
trading `min` of the two quantities and popping orders whose quantity
reaches 0.  Workers derive orders from a linear congruential generator.

The Python `while` loop of `matchOrder` is embedded as a fuel-indexed
function `matchLoop`; `matchOrder` runs it with fuel equal to the number of
resident orders, which is proved sufficient for every book: each crossing
iteration pops at least one order (the one attaining the `min` ends at
exactly quantity 0), so the loop reaches its fixpoint — exactly as the
Python loop terminates on every book state.

Orders carry a ghost `stamp` field recording insertion sequence; it is not
read by any operation and only serves to state the stability (time-priority)
invariant.
-/

/-- Simulation constant from `stock.py`: total number of ticker slots. -/
def NUM_TICKERS : Nat := 1024

/-- LCG multiplier constant from `stock.py`. -/
def LCG_MULTIPLIER : Nat := 1103515245

/-- LCG increment constant from `stock.py`. -/
def LCG_INCREMENT : Nat := 12345

/-- LCG modulus constant from `stock.py`. -/
def LCG_MODULUS : Nat := 2 ^ 31

/-- One LCG step: `local_seed = (LCG_MULTIPLIER * local_seed + LCG_INCREMENT) % LCG_MODULUS`. -/
def lcgNext (seed : Nat) : Nat :=
  (LCG_MULTIPLIER * seed + LCG_INCREMENT) % LCG_MODULUS

/-- Order side: the `order_type` strings `"Buy"` / `"Sell"` of the Python code. -/
inductive Side : Type
  | Buy : Side
  | Sell : Side
deriving DecidableEq, Repr

/-- An order `[order_type, ticker, quantity, price]` as stored in the book.
`stamp` is a ghost insertion-sequence number (Python list objects have
identity; the stamp names that identity so stability can be stated).
Quantity and price are Python integers, hence `Int`. -/
structure Order : Type where
  side : Side
  slot : Nat
  quantity : Int
  price : Int
  stamp : Nat
deriving DecidableEq, Repr

/-- One slot of `order_books`: the pair `[buy_orders, sell_orders]`. -/
structure Book : Type where
  bids : List Order
  asks : List Order
deriving DecidableEq, Repr

/-- The empty book a slot starts with. -/
def emptyBook : Book := ⟨[], []⟩

/-- Sort key for buy orders: `key=lambda x: -x[3]`. -/
def keyBid (o : Order) : Int := -o.price

/-- Sort key for sell orders: `key=lambda x: x[3]`. -/
def keyAsk (o : Order) : Int := o.price

/-- Stable insertion: place `x` after every element `y` of the (already
sorted) accumulator with `le y x`.  Elements with equal keys keep their
relative order, as Python's stable `list.sort` guarantees. -/
def stableInsert (le : Order → Order → Bool) (x : Order) : List Order → List Order
  | [] => [x]
  | y :: ys => if le y x then y :: stableInsert le x ys else x :: y :: ys

/-- Stable sort by the total preorder `le`: the embedding of Python's
stable `list.sort`. -/
def sortByKey (le : Order → Order → Bool) (l : List Order) : List Order :=
  l.foldl (fun acc x => stableInsert le x acc) []

/-- Comparator realizing the bid sort `sort(key=lambda x: -x[3])`. -/
def bidLe (a b : Order) : Bool := decide (keyBid a ≤ keyBid b)

/-- Comparator realizing the ask sort `sort(key=lambda x: x[3])`. -/
def askLe (a b : Order) : Bool := decide (keyAsk a ≤ keyAsk b)

/-- Insert an order into its side and stably re-sort that side
(the first half of Python's `addOrder`, before matching). -/
def addOrderBook (o : Order) (b : Book) : Book :=
  match o.side with
  | Side.Buy => { b with bids := sortByKey bidLe (b.bids ++ [o]) }
  | Side.Sell => { b with asks := sortByKey askLe (b.asks ++ [o]) }

/-- A trade event: the pre-decrement snapshots of the matched buy and sell
orders together with the transacted quantity (the `Matched: ...` print). -/
structure Trade : Type where
  buy : Order
  sell : Order
  qty : Int
deriving DecidableEq, Repr

/-- One iteration of the matching loop body.  `none` when the loop exits
(a side is empty, or `best_buy.price < best_sell.price`); otherwise the
updated sides and the emitted trade. -/
def matchStep (buys sells : List Order) :
    Option (List Order × List Order × Trade) :=
  match buys, sells with
  | b :: bs, s :: ss =>
    if s.price ≤ b.price then
      let tq := min b.quantity s.quantity
      let buys' := if b.quantity - tq = 0 then bs
        else { b with quantity := b.quantity - tq } :: bs
      let sells' := if s.quantity - tq = 0 then ss
        else { s with quantity := s.quantity - tq } :: ss
      some (buys', sells', ⟨b, s, tq⟩)
    else none
  | _, _ => none

/-- The `while buy_orders and sell_orders` loop of `matchOrder`, indexed by
fuel.  Returns the final sides and the list of trades emitted, in order. -/
def matchLoop : Nat → List Order → List Order → List Order × List Order × List Trade
  | 0, buys, sells => (buys, sells, [])
  | fuel + 1, buys, sells =>
    match matchStep buys sells with
    | none => (buys, sells, [])
    | some (buys', sells', t) =>
      let r := matchLoop fuel buys' sells'
      (r.1, r.2.1, t :: r.2.2)

/-- Total resident quantity of a list of orders. -/
def totalQty (l : List Order) : Int := l.foldr (fun o acc => o.quantity + acc) 0

/-- Fuel that always suffices for the matching loop: the number of resident
orders.  Every crossing iteration pops at least one order — the one whose
quantity attains the `min` is decremented to exactly 0 — so the Python loop
performs fewer iterations than this on every book (proved below). -/
def bookFuel (b : Book) : Nat := b.bids.length + b.asks.length

/-- `matchOrder` for one slot: run the matching loop to its fixpoint,
returning the quiescent book and the trades produced. -/
def matchOrder (b : Book) : Book × List Trade :=
  let r := matchLoop (bookFuel b) b.bids b.asks
  (⟨r.1, r.2.1⟩, r.2.2)

/-- Python's `addOrder`: insert, re-sort, then match. -/
def addOrder (o : Order) (b : Book) : Book × List Trade :=
  matchOrder (addOrderBook o b)

/-- An order submission as issued by a caller (before a stamp is attached). -/
structure OrderSpec : Type where
  side : Side
  slot : Nat
  quantity : Int
  price : Int
deriving DecidableEq, Repr

/-- The global `order_books` array, as a function from slot index to book. -/
abbrev Universe : Type := Nat → Book

/-- All books start empty (`order_books.append([[], []])`). -/
def initUniverse : Universe := fun _ => emptyBook

/-- Submit one order: route it to slot `spec.slot % NUM_TICKERS`
(the `ticker_to_index` reduction) and run `addOrder` there, attaching the
ghost stamp.  Other slots are untouched. -/
def submitOne (u : Universe) (spec : OrderSpec) (stamp : Nat) : Universe :=
  let idx := spec.slot % NUM_TICKERS
  let o : Order := ⟨spec.side, idx, spec.quantity, spec.price, stamp⟩
  fun i => if i = idx then (addOrder o (u idx)).1 else u i

/-- Submit a list of orders in sequence, stamping them `stamp, stamp+1, …`. -/
def submitAll (u : Universe) (specs : List OrderSpec) (stamp : Nat) : Universe :=
  match specs with
  | [] => u
  | spec :: rest => submitAll (submitOne u spec stamp) rest (stamp + 1)

/-- Every resident order has quantity at least 1 (the book invariant the
spec states for resident orders). -/
def wf (l : List Order) : Prop := ∀ o ∈ l, 1 ≤ o.quantity

instance (l : List Order) : Decidable (wf l) := by
  unfold wf; infer_instance

/-- The no-cross condition: a side is empty, or the best bid's price is
strictly below the best ask's price. -/
def noCross (b : Book) : Prop :=
  match b.bids, b.asks with
  | bb :: _, sa :: _ => bb.price < sa.price
  | _, _ => True

instance (b : Book) : Decidable (noCross b) := by
  unfold noCross
  cases b.bids with
  | nil => exact inferInstance
  | cons x xs => cases b.asks <;> exact inferInstance

/-- One draw of the worker: the four values derived from four consecutive
LCG advances, in the order side, ticker index, quantity, price. -/
structure Draw : Type where
  side : Side
  tickerIndex : Nat
  quantity : Nat
  price : Nat
deriving DecidableEq, Repr

/-- One step of `worker`: four consecutive LCG updates producing side
(`"Buy"` iff the new seed is below `LCG_MODULUS // 2`), ticker index
(`% len(tickers)` with `len(tickers) = NUM_TICKERS`), quantity
(`% 100 + 1`) and price (`% 991 + 10`), returning the final seed. -/
def workerStep (seed : Nat) : Draw × Nat :=
  let s1 := lcgNext seed
  let side := if s1 < LCG_MODULUS / 2 then Side.Buy else Side.Sell
  let s2 := lcgNext s1
  let tickerIndex := s2 % NUM_TICKERS
  let s3 := lcgNext s2
  let quantity := s3 % 100 + 1
  let s4 := lcgNext s3
  let price := s4 % 991 + 10
  (⟨side, tickerIndex, quantity, price⟩, s4)

/-- The initial seed of worker `worker_id`: `123456789 + worker_id`. -/
def workerInitSeed (workerId : Nat) : Nat := 123456789 + workerId

/-- The draws a worker makes over `n` transactions starting from `seed`. -/
def workerDraws : Nat → Nat → List Draw
  | 0, _ => []
  | n + 1, seed =>
    let r := workerStep seed
    r.1 :: workerDraws n r.2

/-! ### Basic facts about the matching step -/

lemma totalQty_nil : totalQty [] = 0 := rfl

lemma totalQty_cons (o : Order) (l : List Order) :
    totalQty (o :: l) = o.quantity + totalQty l := rfl

lemma totalQty_nonneg {l : List Order} (h : wf l) : 0 ≤ totalQty l := by
  induction l with
  | nil => simp [totalQty_nil]
  | cons o t ih =>
    have h1 := h o (by simp)
    have h2 : wf t := fun x hx => h x (by simp [hx])
    have := ih h2
    rw [totalQty_cons]
    omega

lemma totalQty_pos_left {b : Order} {l : List Order} (h : wf (b :: l)) :
    1 ≤ totalQty (b :: l) := by
  have h1 := h b (by simp)
  have h2 : wf l := fun x hx => h x (by simp [hx])
  have := totalQty_nonneg h2
  rw [totalQty_cons]
  omega

lemma length_le_totalQty {l : List Order} (h : wf l) : (l.length : Int) ≤ totalQty l := by
  induction l with
  | nil => simp [totalQty_nil]
  | cons o t ih =>
    have h1 := h o (by simp)
    have h2 : wf t := fun x hx => h x (by simp [hx])
    have := ih h2
    rw [totalQty_cons, List.length_cons]
    push_cast
    omega

lemma matchStep_nil_left (sells : List Order) : matchStep [] sells = none := rfl

lemma matchStep_nil_right (buys : List Order) : matchStep buys [] = none := by
  cases buys <;> rfl

lemma matchStep_cons (b s : Order) (bs ss : List Order) (hp : s.price ≤ b.price) :
    matchStep (b :: bs) (s :: ss) =
      some ((if b.quantity - min b.quantity s.quantity = 0 then bs
             else { b with quantity := b.quantity - min b.quantity s.quantity } :: bs),
            (if s.quantity - min b.quantity s.quantity = 0 then ss
             else { s with quantity := s.quantity - min b.quantity s.quantity } :: ss),
            ⟨b, s, min b.quantity s.quantity⟩) := by
  simp [matchStep, hp]

lemma matchStep_cons_nocross (b s : Order) (bs ss : List Order) (hp : ¬ s.price ≤ b.price) :
    matchStep (b :: bs) (s :: ss) = none := by
  simp [matchStep, hp]

lemma matchStep_some_elim {buys sells B S : List Order} {t : Trade}
    (h : matchStep buys sells = some (B, S, t)) :
    ∃ b bs s ss, buys = b :: bs ∧ sells = s :: ss ∧ s.price ≤ b.price ∧
      t = ⟨b, s, min b.quantity s.quantity⟩ ∧
      B = (if b.quantity - min b.quantity s.quantity = 0 then bs
           else { b with quantity := b.quantity - min b.quantity s.quantity } :: bs) ∧
      S = (if s.quantity - min b.quantity s.quantity = 0 then ss
           else { s with quantity := s.quantity - min b.quantity s.quantity } :: ss) := by
  match buys, sells with
  | [], _ => simp [matchStep] at h
  | _ :: _, [] => simp [matchStep] at h
  | b :: bs, s :: ss =>
    by_cases hp : s.price ≤ b.price
    · rw [matchStep_cons b s bs ss hp, Option.some.injEq] at h
      refine ⟨b, bs, s, ss, rfl, rfl, hp, ?_, ?_, ?_⟩
      · exact (congrArg (fun p => p.2.2) h).symm
      · exact (congrArg (fun p => p.1) h).symm
      · exact (congrArg (fun p => p.2.1) h).symm
    · rw [matchStep_cons_nocross b s bs ss hp] at h
      exact absurd h (by simp)

lemma matchStep_none_iff (buys sells : List Order) :
    matchStep buys sells = none ↔ noCross ⟨buys, sells⟩ := by
  match buys, sells with
  | [], _ => simp [matchStep, noCross]
  | _ :: _, [] => simp [matchStep, noCross]
  | b :: bs, s :: ss =>
    by_cases hp : s.price ≤ b.price
    · rw [matchStep_cons b s bs ss hp]
      simp [noCross]
      omega
    · rw [matchStep_cons_nocross b s bs ss hp]
      simp [noCross]
      omega

lemma matchStep_totalQty {buys sells B S : List Order} {t : Trade}
    (h : matchStep buys sells = some (B, S, t)) :
    totalQty B + totalQty S + 2 * t.qty = totalQty buys + totalQty sells := by
  obtain ⟨b, bs, s, ss, hb, hs, _, ht, hB, hS⟩ := matchStep_some_elim h
  subst hb hs ht hB hS
  by_cases h1 : b.quantity - min b.quantity s.quantity = 0 <;>
    by_cases h2 : s.quantity - min b.quantity s.quantity = 0 <;>
      simp only [if_pos, if_neg, h1, h2, totalQty_cons, if_true, if_false] <;> omega

lemma matchStep_wf {buys sells B S : List Order} {t : Trade}
    (hb : wf buys) (hs : wf sells) (h : matchStep buys sells = some (B, S, t)) :
    wf B ∧ wf S ∧ 1 ≤ t.qty := by
  obtain ⟨b, bs, s, ss, hbe, hse, _, ht, hB, hS⟩ := matchStep_some_elim h
  subst hbe hse ht hB hS
  have hbq := hb b (by simp)
  have hsq := hs s (by simp)
  have hbs : wf bs := fun x hx => hb x (by simp [hx])
  have hss : wf ss := fun x hx => hs x (by simp [hx])
  refine ⟨?_, ?_, ?_⟩
  · split
    · exact hbs
    · intro x hx
      rcases List.mem_cons.mp hx with h | h
      · subst h; simp only []; omega
      · exact hbs x h
  · split
    · exact hss
    · intro x hx
      rcases List.mem_cons.mp hx with h | h
      · subst h; simp only []; omega
      · exact hss x h
  · simp only []; omega

/-! ### The matching loop reaches its fixpoint -/

lemma matchLoop_zero (buys sells : List Order) :
    matchLoop 0 buys sells = (buys, sells, []) := rfl

lemma matchLoop_succ_none {buys sells : List Order} (fuel : Nat)
    (h : matchStep buys sells = none) :
    matchLoop (fuel + 1) buys sells = (buys, sells, []) := by
  simp [matchLoop, h]

lemma matchLoop_succ_some {buys sells B S : List Order} {t : Trade} (fuel : Nat)
    (h : matchStep buys sells = some (B, S, t)) :
    matchLoop (fuel + 1) buys sells =
      ((matchLoop fuel B S).1, (matchLoop fuel B S).2.1, t :: (matchLoop fuel B S).2.2) := by
  simp [matchLoop, h]

lemma matchLoop_of_none {buys sells : List Order} (fuel : Nat)
    (h : matchStep buys sells = none) :
    matchLoop fuel buys sells = (buys, sells, []) := by
  cases fuel with
  | zero => rfl
  | succ f => exact matchLoop_succ_none f h

lemma matchStep_some_totals_lt {buys sells B S : List Order} {t : Trade}
    (hb : wf buys) (hs : wf sells) (h : matchStep buys sells = some (B, S, t)) :
    totalQty B + totalQty S + 2 ≤ totalQty buys + totalQty sells := by
  have h1 := matchStep_totalQty h
  have h2 := (matchStep_wf hb hs h).2.2
  omega

/-- Every crossing iteration pops at least one order: the order whose
quantity attains the `min` is decremented to exactly 0 and removed, for any
integer quantities.  This is why the Python loop terminates on every book. -/
lemma matchStep_length {buys sells B S : List Order} {t : Trade}
    (h : matchStep buys sells = some (B, S, t)) :
    B.length + S.length < buys.length + sells.length := by
  obtain ⟨b, bs, s, ss, hbe, hse, _, _, hB, hS⟩ := matchStep_some_elim h
  subst hbe hse hB hS
  have hmin : b.quantity - min b.quantity s.quantity = 0 ∨
      s.quantity - min b.quantity s.quantity = 0 := by omega
  by_cases h1 : b.quantity - min b.quantity s.quantity = 0
  · rw [if_pos h1]
    split <;> simp only [List.length_cons] <;> omega
  · rw [if_neg h1]
    have h2 : s.quantity - min b.quantity s.quantity = 0 := by
      rcases hmin with hm | hm
      · exact absurd hm h1
      · exact hm
    rw [if_pos h2]
    simp only [List.length_cons]
    omega

/-- With fuel at least the number of resident orders, the matching loop
runs to a state from which no further match is possible — for every book
state: the embedding of the Python loop's actual termination. -/
lemma matchLoop_fix : ∀ (fuel : Nat) (buys sells : List Order),
    buys.length + sells.length ≤ fuel →
    matchStep (matchLoop fuel buys sells).1 (matchLoop fuel buys sells).2.1 = none := by
  intro fuel
  induction fuel with
  | zero =>
    intro buys sells hf
    rw [matchLoop_zero]
    have hb : buys = [] := List.eq_nil_of_length_eq_zero (by omega)
    rw [hb]
    exact matchStep_nil_left _
  | succ f ih =>
    intro buys sells hf
    cases h : matchStep buys sells with
    | none => rw [matchLoop_succ_none f h]; exact h
    | some r =>
      obtain ⟨B, S, t⟩ := r
      rw [matchLoop_succ_some f h]
      have hlt := matchStep_length h
      exact ih B S (by omega)

/-- Fuel indifference: any two fuels at least the number of resident
orders produce the same loop result (so the fuel choice in `matchOrder` is
immaterial, as it is for the unfueled Python loop). -/
lemma matchLoop_fuel_eq : ∀ (f1 f2 : Nat) (buys sells : List Order),
    buys.length + sells.length ≤ f1 →
    buys.length + sells.length ≤ f2 →
    matchLoop f1 buys sells = matchLoop f2 buys sells := by
  intro f1
  induction f1 with
  | zero =>
    intro f2 buys sells h1 h2
    rw [matchLoop_zero]
    have hb : buys = [] := List.eq_nil_of_length_eq_zero (by omega)
    rw [hb, matchLoop_of_none f2 (matchStep_nil_left _)]
  | succ g ih =>
    intro f2 buys sells h1 h2
    cases h : matchStep buys sells with
    | none => rw [matchLoop_of_none _ h, matchLoop_of_none _ h]
    | some r =>
      obtain ⟨B, S, t⟩ := r
      have hlt := matchStep_length h
      match f2 with
      | 0 =>
        exfalso
        have hb : buys = [] := List.eq_nil_of_length_eq_zero (by omega)
        rw [hb, matchStep_nil_left] at h
        exact Option.noConfusion h
      | f2 + 1 =>
        rw [matchLoop_succ_some g h, matchLoop_succ_some f2 h]
        rw [ih f2 B S (by omega) (by omega)]

/-- The matching loop preserves well-formedness of both sides. -/
lemma matchLoop_wf : ∀ (fuel : Nat) (buys sells : List Order), wf buys → wf sells →
    wf (matchLoop fuel buys sells).1 ∧ wf (matchLoop fuel buys sells).2.1 := by
  intro fuel
  induction fuel with
  | zero => intro buys sells hb hs; rw [matchLoop_zero]; exact ⟨hb, hs⟩
  | succ f ih =>
    intro buys sells hb hs
    cases h : matchStep buys sells with
    | none => rw [matchLoop_succ_none f h]; exact ⟨hb, hs⟩
    | some r =>
      obtain ⟨B, S, t⟩ := r
      rw [matchLoop_succ_some f h]
      obtain ⟨hwB, hwS, _⟩ := matchStep_wf hb hs h
      exact ih B S hwB hwS

/-! ### Membership through the stable sort -/

lemma mem_stableInsert (le : Order → Order → Bool) (x y : Order) (l : List Order) :
    y ∈ stableInsert le x l ↔ y = x ∨ y ∈ l := by
  induction l with
  | nil => simp [stableInsert]
  | cons z zs ih =>
    simp only [stableInsert]
    split
    · simp only [List.mem_cons, ih]
      tauto
    · simp only [List.mem_cons]

lemma mem_sortByKey (le : Order → Order → Bool) (y : Order) (l : List Order) :
    y ∈ sortByKey le l ↔ y ∈ l := by
  have general : ∀ (l acc : List Order),
      (y ∈ l.foldl (fun acc x => stableInsert le x acc) acc ↔ y ∈ acc ∨ y ∈ l) := by
    intro l
    induction l with
    | nil => intro acc; simp
    | cons x xs ih =>
      intro acc
      rw [List.foldl_cons, ih, mem_stableInsert]
      simp only [List.mem_cons]
      tauto
  rw [sortByKey, general]
  simp

lemma addOrderBook_wf {o : Order} {b : Book} (hb : wf b.bids) (hs : wf b.asks)
    (hq : 1 ≤ o.quantity) :
    wf (addOrderBook o b).bids ∧ wf (addOrderBook o b).asks := by
  cases ho : o.side <;> simp only [addOrderBook, ho]
  · refine ⟨?_, hs⟩
    intro x hx
    rw [mem_sortByKey, List.mem_append, List.mem_singleton] at hx
    rcases hx with h | h
    · exact hb x h
    · subst h; exact hq
  · refine ⟨hb, ?_⟩
    intro x hx
    rw [mem_sortByKey, List.mem_append, List.mem_singleton] at hx
    rcases hx with h | h
    · exact hs x h
    · subst h; exact hq

/-! ### `matchOrder` runs to a quiescent, non-crossed state -/

lemma matchOrder_eq (b : Book) :
    matchOrder b = (⟨(matchLoop (bookFuel b) b.bids b.asks).1,
                    (matchLoop (bookFuel b) b.bids b.asks).2.1⟩,
                   (matchLoop (bookFuel b) b.bids b.asks).2.2) := rfl

lemma matchOrder_wf {b : Book} (hb : wf b.bids) (hs : wf b.asks) :
    wf (matchOrder b).1.bids ∧ wf (matchOrder b).1.asks := by
  rw [matchOrder_eq]
  exact matchLoop_wf (bookFuel b) b.bids b.asks hb hs

lemma matchOrder_noCross (b : Book) : noCross (matchOrder b).1 := by
  have h := matchLoop_fix (bookFuel b) b.bids b.asks (le_refl _)
  rw [matchStep_none_iff] at h
  exact h

lemma matchOrder_of_fixed {b : Book} (h : matchStep b.bids b.asks = none) :
    matchOrder b = (b, []) := by
  rw [matchOrder_eq, matchLoop_of_none _ h]

lemma addOrder_wf {o : Order} {b : Book} (hb : wf b.bids) (hs : wf b.asks)
    (hq : 1 ≤ o.quantity) :
    wf (addOrder o b).1.bids ∧ wf (addOrder o b).1.asks := by
  obtain ⟨h1, h2⟩ := addOrderBook_wf hb hs hq
  exact matchOrder_wf h1 h2

lemma addOrder_noCross (o : Order) (b : Book) : noCross (addOrder o b).1 :=
  matchOrder_noCross (addOrderBook o b)

/-- The books-and-no-cross invariant on the whole universe of slots. -/
def univInv (u : Universe) : Prop :=
  ∀ i, (wf (u i).bids ∧ wf (u i).asks) ∧ noCross (u i)

lemma univInv_init : univInv initUniverse := by
  intro i
  exact ⟨⟨fun o h => absurd h (List.not_mem_nil o), fun o h => absurd h (List.not_mem_nil o)⟩,
         trivial⟩

lemma univInv_submitOne {u : Universe} {spec : OrderSpec} {stamp : Nat}
    (h : univInv u) (hq : 1 ≤ spec.quantity) : univInv (submitOne u spec stamp) := by
  intro i
  simp only [submitOne]
  split
  · obtain ⟨⟨hb, hs⟩, _⟩ := h (spec.slot % NUM_TICKERS)
    exact ⟨addOrder_wf hb hs hq, addOrder_noCross _ _⟩
  · exact h i

lemma univInv_submitAll : ∀ (specs : List OrderSpec) (u : Universe) (stamp : Nat),
    univInv u → (∀ sp ∈ specs, 1 ≤ sp.quantity) → univInv (submitAll u specs stamp) := by
  intro specs
  induction specs with
  | nil => intro u stamp h _; exact h
  | cons sp rest ih =>
    intro u stamp h hq
    exact ih _ _ (univInv_submitOne h (hq sp (by simp)))
      (fun x hx => hq x (by simp [hx]))

/-! ### Claim theorems: matching engine -/

/-- C1: after every order submission (`addOrder`) returns, every instrument
slot's book is uncrossed: if both the bids and the asks of the slot are
non-empty, the first bid's price is strictly less than the first ask's
price.  Stated for every sequence of submissions (hence after every prefix)
starting from the empty universe, under the resident-quantity invariant
(every submitted order has quantity at least 1, which is what the Python
loop's termination requires). -/
theorem submit_noCross (specs : List OrderSpec)
    (h : ∀ sp ∈ specs, 1 ≤ sp.quantity) (i : Nat) :
    noCross (submitAll initUniverse specs 0 i) :=
  ((univInv_submitAll specs initUniverse 0 univInv_init h) i).2

/-- Witness for C1: a concrete crossing submission sequence leaves slot 7
uncrossed. -/
theorem submit_noCross_witness :
    (∀ sp ∈ [(⟨Side.Buy, 7, 10, 100⟩ : OrderSpec), ⟨Side.Sell, 7, 4, 90⟩],
      1 ≤ sp.quantity) ∧
    noCross (submitAll initUniverse
      [⟨Side.Buy, 7, 10, 100⟩, ⟨Side.Sell, 7, 4, 90⟩] 0 7) :=
  ⟨by decide, submit_noCross _ (by decide) 7⟩

/-- C2: in every matching step (both sides non-empty and best bid price ≥
best ask price), the traded quantity is `min` of the two best quantities,
both orders are decremented by exactly that amount (quantity conservation,
both per-order and for total resident quantity), and an order is removed
from its side exactly when its quantity reaches 0 (both can be removed in
one step). -/
theorem matchStep_single_match {buys sells B S : List Order} {t : Trade}
    (h : matchStep buys sells = some (B, S, t)) :
    t.qty = min t.buy.quantity t.sell.quantity ∧
    buys.head? = some t.buy ∧ sells.head? = some t.sell ∧
    t.buy.quantity + t.sell.quantity =
      (t.buy.quantity - t.qty) + (t.sell.quantity - t.qty) + 2 * t.qty ∧
    totalQty B + totalQty S + 2 * t.qty = totalQty buys + totalQty sells ∧
    (B = buys.tail ↔ t.buy.quantity - t.qty = 0) ∧
    (S = sells.tail ↔ t.sell.quantity - t.qty = 0) ∧
    (t.buy.quantity - t.qty ≠ 0 →
      B = { t.buy with quantity := t.buy.quantity - t.qty } :: buys.tail) ∧
    (t.sell.quantity - t.qty ≠ 0 →
      S = { t.sell with quantity := t.sell.quantity - t.qty } :: sells.tail) := by
  have h5 := matchStep_totalQty h
  obtain ⟨b, bs, s, ss, hbe, hse, hp, ht, hB, hS⟩ := matchStep_some_elim h
  subst hbe hse ht hB hS
  refine ⟨rfl, rfl, rfl, by omega, h5, ?_, ?_, ?_, ?_⟩
  · by_cases h1 : b.quantity - min b.quantity s.quantity = 0
    · simp [h1]
    · simp [h1, List.cons_ne_self]
  · by_cases h2 : s.quantity - min b.quantity s.quantity = 0
    · simp [h2]
    · simp [h2, List.cons_ne_self]
  · intro h1
    rw [if_neg h1]
    rfl
  · intro h2
    rw [if_neg h2]
    rfl

/-- Witness for C2: a concrete match of a 5-lot bid against a 3-lot ask. -/
theorem matchStep_single_match_witness :
    matchStep [⟨Side.Buy, 0, 5, 100, 0⟩] [⟨Side.Sell, 0, 3, 90, 1⟩] =
      some ([⟨Side.Buy, 0, 2, 100, 0⟩], [],
            ⟨⟨Side.Buy, 0, 5, 100, 0⟩, ⟨Side.Sell, 0, 3, 90, 1⟩, 3⟩) ∧
    ((⟨⟨Side.Buy, 0, 5, 100, 0⟩, ⟨Side.Sell, 0, 3, 90, 1⟩, 3⟩ : Trade).qty =
        min (5 : Int) 3 ∧
      [(⟨Side.Buy, 0, 5, 100, 0⟩ : Order)].head? = some ⟨Side.Buy, 0, 5, 100, 0⟩ ∧
      (5 : Int) + 3 = (5 - 3) + (3 - 3) + 2 * 3 ∧
      totalQty [⟨Side.Buy, 0, 2, 100, 0⟩] + totalQty [] + 2 * 3 =
        totalQty [⟨Side.Buy, 0, 5, 100, 0⟩] + totalQty [⟨Side.Sell, 0, 3, 90, 1⟩]) :=
  ⟨by decide,
    by
      have h := @matchStep_single_match
        [⟨Side.Buy, 0, 5, 100, 0⟩] [⟨Side.Sell, 0, 3, 90, 1⟩]
        [⟨Side.Buy, 0, 2, 100, 0⟩] []
        ⟨⟨Side.Buy, 0, 5, 100, 0⟩, ⟨Side.Sell, 0, 3, 90, 1⟩, 3⟩ (by decide)
      exact ⟨h.1, h.2.1, by decide, h.2.2.2.2.1⟩⟩

/-- C8 (amended): with every resident quantity at least 1, the matching
loop terminates — any fuel at least the total resident quantity yields the
same (fixpoint) result; each match step decreases the total resident
quantity by exactly `2 * trade_qty` (hence by at least `trade_qty ≥ 1`);
and an iteration that performs no match exits the loop leaving the book
unchanged. -/
theorem matchLoop_termination_spec :
    (∀ (buys sells : List Order) (fuel : Nat), wf buys → wf sells →
        (totalQty buys + totalQty sells).toNat ≤ fuel →
        matchLoop fuel buys sells =
          matchLoop ((totalQty buys + totalQty sells).toNat) buys sells) ∧
    (∀ (buys sells B S : List Order) (t : Trade),
        matchStep buys sells = some (B, S, t) →
        totalQty B + totalQty S = (totalQty buys + totalQty sells) - 2 * t.qty ∧
        (wf buys → wf sells → 1 ≤ t.qty)) ∧
    (∀ (buys sells : List Order) (fuel : Nat), matchStep buys sells = none →
        matchLoop fuel buys sells = (buys, sells, [])) := by
  refine ⟨?_, ?_, ?_⟩
  · intro buys sells fuel hb hs hf
    have l1 := length_le_totalQty hb
    have l2 := length_le_totalQty hs
    exact matchLoop_fuel_eq fuel _ buys sells (by omega) (by omega)
  · intro buys sells B S t h
    have := matchStep_totalQty h
    exact ⟨by omega, fun hb hs => (matchStep_wf hb hs h).2.2⟩
  · intro buys sells fuel h
    exact matchLoop_of_none fuel h

/-- Witness for C8: concrete instances of all three conjuncts. -/
theorem matchLoop_termination_spec_witness :
    matchLoop 9 [⟨Side.Buy, 0, 5, 100, 0⟩] [⟨Side.Sell, 0, 3, 90, 1⟩] =
      matchLoop ((totalQty [⟨Side.Buy, 0, 5, 100, 0⟩] +
        totalQty [⟨Side.Sell, 0, 3, 90, 1⟩]).toNat)
        [⟨Side.Buy, 0, 5, 100, 0⟩] [⟨Side.Sell, 0, 3, 90, 1⟩] ∧
    (totalQty [⟨Side.Buy, 0, 2, 100, 0⟩] + totalQty [] =
        (totalQty [⟨Side.Buy, 0, 5, 100, 0⟩] +
          totalQty [⟨Side.Sell, 0, 3, 90, 1⟩]) - 2 *
          (⟨⟨Side.Buy, 0, 5, 100, 0⟩, ⟨Side.Sell, 0, 3, 90, 1⟩, 3⟩ : Trade).qty ∧
      1 ≤ (⟨⟨Side.Buy, 0, 5, 100, 0⟩, ⟨Side.Sell, 0, 3, 90, 1⟩, 3⟩ : Trade).qty) ∧
    matchLoop 5 [] [⟨Side.Sell, 0, 3, 90, 1⟩] = ([], [⟨Side.Sell, 0, 3, 90, 1⟩], []) :=
  ⟨matchLoop_termination_spec.1 [⟨Side.Buy, 0, 5, 100, 0⟩] [⟨Side.Sell, 0, 3, 90, 1⟩]
      9 (by decide) (by decide) (by decide),
    ⟨(matchLoop_termination_spec.2.1 [⟨Side.Buy, 0, 5, 100, 0⟩] [⟨Side.Sell, 0, 3, 90, 1⟩]
        [⟨Side.Buy, 0, 2, 100, 0⟩] []
        (⟨⟨Side.Buy, 0, 5, 100, 0⟩, ⟨Side.Sell, 0, 3, 90, 1⟩, 3⟩) (by decide)).1,
      (matchLoop_termination_spec.2.1 [⟨Side.Buy, 0, 5, 100, 0⟩] [⟨Side.Sell, 0, 3, 90, 1⟩]
        [⟨Side.Buy, 0, 2, 100, 0⟩] []
        (⟨⟨Side.Buy, 0, 5, 100, 0⟩, ⟨Side.Sell, 0, 3, 90, 1⟩, 3⟩) (by decide)).2
        (by decide) (by decide)⟩,
    matchLoop_termination_spec.2.2 [] [⟨Side.Sell, 0, 3, 90, 1⟩] 5 (by decide)⟩

/-- Counterexample for C8 as stated: a match step decreases the total
resident quantity by `2 * trade_qty`, not by `trade_qty` — here the trade
quantity is 3 but the total falls from 8 to 2, a decrease of 6. -/
theorem matchStep_decrease_ne_trade_qty :
    matchStep [⟨Side.Buy, 0, 5, 100, 0⟩] [⟨Side.Sell, 0, 3, 90, 1⟩] =
      some ([⟨Side.Buy, 0, 2, 100, 0⟩], [],
            ⟨⟨Side.Buy, 0, 5, 100, 0⟩, ⟨Side.Sell, 0, 3, 90, 1⟩, 3⟩) ∧
    ¬ ((totalQty [⟨Side.Buy, 0, 5, 100, 0⟩] + totalQty [⟨Side.Sell, 0, 3, 90, 1⟩]) -
        (totalQty [⟨Side.Buy, 0, 2, 100, 0⟩] + totalQty ([] : List Order)) =
        (⟨⟨Side.Buy, 0, 5, 100, 0⟩, ⟨Side.Sell, 0, 3, 90, 1⟩, 3⟩ : Trade).qty) := by
  decide

/-- C9: the concrete scenario — on an empty slot, submitting Buy 10@100,
then Sell 4@90, then Sell 10@100 produces no trade, a trade of quantity 4
(bid residual 6@100, asks empty), and a trade of quantity 6, ending with
bids empty and asks `[4@100]`. -/
theorem addOrder_concrete_scenario :
    addOrder ⟨Side.Buy, 7, 10, 100, 0⟩ emptyBook =
      (⟨[⟨Side.Buy, 7, 10, 100, 0⟩], []⟩, []) ∧
    addOrder ⟨Side.Sell, 7, 4, 90, 1⟩ ⟨[⟨Side.Buy, 7, 10, 100, 0⟩], []⟩ =
      (⟨[⟨Side.Buy, 7, 6, 100, 0⟩], []⟩,
        [⟨⟨Side.Buy, 7, 10, 100, 0⟩, ⟨Side.Sell, 7, 4, 90, 1⟩, 4⟩]) ∧
    addOrder ⟨Side.Sell, 7, 10, 100, 2⟩ ⟨[⟨Side.Buy, 7, 6, 100, 0⟩], []⟩ =
      (⟨[], [⟨Side.Sell, 7, 4, 100, 2⟩]⟩,
        [⟨⟨Side.Buy, 7, 6, 100, 0⟩, ⟨Side.Sell, 7, 10, 100, 2⟩, 6⟩]) := by
  decide

/-- C10: `matchOrder` is idempotent on every book state: the loop runs to
its fixpoint (each crossing iteration pops the order attaining the `min`,
so it terminates for any quantities), and a second run on the
already-matched book returns it unchanged and emits no trades — so the
worker's second `matchOrder` call right after `addOrder` never changes any
book. -/
theorem matchOrder_idem (b : Book) :
    matchOrder (matchOrder b).1 = ((matchOrder b).1, []) := by
  apply matchOrder_of_fixed
  exact matchLoop_fix (bookFuel b) b.bids b.asks (le_refl _)

/-! ### Stable sorting: price order with time priority -/

/-- Strict priority order induced by a sort key: smaller key first, ties
resolved by insertion stamp (earlier first). -/
def keyPriority (key : Order → Int) (a b : Order) : Prop :=
  key a < key b ∨ (key a = key b ∧ a.stamp < b.stamp)

/-- Bid book precedence as the spec states it: higher price first, ties by
earlier insertion. -/
def bidPrec (a b : Order) : Prop :=
  b.price < a.price ∨ (a.price = b.price ∧ a.stamp < b.stamp)

/-- Ask book precedence as the spec states it: lower price first, ties by
earlier insertion. -/
def askPrec (a b : Order) : Prop :=
  a.price < b.price ∨ (a.price = b.price ∧ a.stamp < b.stamp)

lemma keyPriority_keyBid_iff (a b : Order) : keyPriority keyBid a b ↔ bidPrec a b := by
  unfold keyPriority keyBid bidPrec
  omega

lemma keyPriority_keyAsk_iff (a b : Order) : keyPriority keyAsk a b ↔ askPrec a b := by
  unfold keyPriority keyAsk askPrec
  omega

lemma keyPriority_le {key : Order → Int} {a b : Order} (h : keyPriority key a b) :
    key a ≤ key b := by
  rcases h with h | ⟨h, _⟩
  · exact le_of_lt h
  · exact le_of_eq h

lemma bidLe_iff (a b : Order) : bidLe a b = true ↔ keyBid a ≤ keyBid b := by
  simp [bidLe]

lemma askLe_iff (a b : Order) : askLe a b = true ↔ keyAsk a ≤ keyAsk b := by
  simp [askLe]

lemma stableInsert_of_all (le : Order → Order → Bool) (x : Order) :
    ∀ l : List Order, (∀ y ∈ l, le y x = true) → stableInsert le x l = l ++ [x] := by
  intro l
  induction l with
  | nil => intro _; rfl
  | cons z zs ih =>
    intro h
    simp only [stableInsert]
    rw [if_pos (h z (by simp)), ih (fun y hy => h y (by simp [hy]))]
    rfl

lemma foldl_stableInsert_sorted (le : Order → Order → Bool) :
    ∀ (l acc : List Order), (acc ++ l).Pairwise (fun a b => le a b = true) →
    l.foldl (fun acc x => stableInsert le x acc) acc = acc ++ l := by
  intro l
  induction l with
  | nil => intro acc _; simp
  | cons a l ih =>
    intro acc h
    rw [List.foldl_cons]
    have hall : ∀ y ∈ acc, le y a = true := by
      rw [List.pairwise_append] at h
      exact fun y hy => h.2.2 y hy a (by simp)
    rw [stableInsert_of_all le a acc hall]
    rw [List.append_cons] at h
    rw [ih (acc ++ [a]) h, ← List.append_cons]

/-- A list already sorted by the comparator is left unchanged by the stable
sort (so appending one order and re-sorting is a single ordered insert). -/
lemma sortByKey_of_sorted (le : Order → Order → Bool) (l : List Order)
    (h : l.Pairwise (fun a b => le a b = true)) : sortByKey le l = l := by
  have := foldl_stableInsert_sorted le l [] (by simpa using h)
  simpa [sortByKey] using this

lemma sortByKey_append (le : Order → Order → Bool) (l : List Order) (x : Order) :
    sortByKey le (l ++ [x]) = stableInsert le x (sortByKey le l) := by
  rw [sortByKey, sortByKey, List.foldl_append]
  rfl

lemma pairwise_le_of_keyPriority (key : Order → Int) (le : Order → Order → Bool)
    (hle : ∀ a b, le a b = true ↔ key a ≤ key b) {l : List Order}
    (h : l.Pairwise (keyPriority key)) : l.Pairwise (fun a b => le a b = true) :=
  h.imp (fun hab => (hle _ _).mpr (keyPriority_le hab))

/-- Stable insertion of a fresh (largest-stamp) order preserves the
key-priority order: the new order lands after every order with key at most
its own (hence after equal-priced earlier orders) and before every order
with strictly larger key. -/
lemma stableInsert_pairwise (key : Order → Int) (le : Order → Order → Bool)
    (hle : ∀ a b, le a b = true ↔ key a ≤ key b) (x : Order) :
    ∀ l : List Order, l.Pairwise (keyPriority key) → (∀ y ∈ l, y.stamp < x.stamp) →
    (stableInsert le x l).Pairwise (keyPriority key) := by
  intro l
  induction l with
  | nil =>
    intro _ _
    simp [stableInsert]
  | cons y ys ih =>
    intro hp hst
    rw [List.pairwise_cons] at hp
    obtain ⟨hy, hys⟩ := hp
    simp only [stableInsert]
    split
    case isTrue h =>
      rw [List.pairwise_cons]
      refine ⟨?_, ih hys (fun z hz => hst z (by simp [hz]))⟩
      intro z hz
      rw [mem_stableInsert] at hz
      rcases hz with rfl | hz
      · have hyx : key y ≤ key z := (hle y z).mp h
        rcases lt_or_eq_of_le hyx with hlt | heq
        · exact Or.inl hlt
        · exact Or.inr ⟨heq, hst y (by simp)⟩
      · exact hy z hz
    case isFalse h =>
      rw [List.pairwise_cons]
      refine ⟨?_, List.pairwise_cons.mpr ⟨hy, hys⟩⟩
      intro z hz
      have h1 : ¬ key y ≤ key x := fun hc => h ((hle y x).mpr hc)
      rcases List.mem_cons.mp hz with rfl | hz
      · exact Or.inl (by omega)
      · have h2 : key z ≤ key z := le_refl _
        have h3 : key y ≤ key z := keyPriority_le (hy z hz)
        exact Or.inl (by omega)

/-! ### Matching preserves the order and stamp invariants of each side -/

lemma matchStep_side_invariants {buys sells B S : List Order} {t : Trade}
    (h : matchStep buys sells = some (B, S, t))
    {Rb Rs : Order → Order → Prop} {Pb Ps : Order → Prop}
    (hRb : ∀ a c q, Rb a c → Rb { a with quantity := q } c)
    (hRs : ∀ a c q, Rs a c → Rs { a with quantity := q } c)
    (hPb : ∀ a q, Pb a → Pb { a with quantity := q })
    (hPs : ∀ a q, Ps a → Ps { a with quantity := q })
    (hpb : buys.Pairwise Rb) (hps : sells.Pairwise Rs)
    (hqb : ∀ o ∈ buys, Pb o) (hqs : ∀ o ∈ sells, Ps o) :
    B.Pairwise Rb ∧ S.Pairwise Rs ∧ (∀ o ∈ B, Pb o) ∧ (∀ o ∈ S, Ps o) := by
  obtain ⟨b, bs, s, ss, hbe, hse, _, _, hB, hS⟩ := matchStep_some_elim h
  subst hbe hse hB hS
  rw [List.pairwise_cons] at hpb hps
  refine ⟨?_, ?_, ?_, ?_⟩
  · split
    · exact hpb.2
    · exact List.pairwise_cons.mpr ⟨fun z hz => hRb b z _ (hpb.1 z hz), hpb.2⟩
  · split
    · exact hps.2
    · exact List.pairwise_cons.mpr ⟨fun z hz => hRs s z _ (hps.1 z hz), hps.2⟩
  · split
    · exact fun o ho => hqb o (by simp [ho])
    · intro o ho
      rcases List.mem_cons.mp ho with rfl | ho
      · exact hPb b _ (hqb b (by simp))
      · exact hqb o (by simp [ho])
  · split
    · exact fun o ho => hqs o (by simp [ho])
    · intro o ho
      rcases List.mem_cons.mp ho with rfl | ho
      · exact hPs s _ (hqs s (by simp))
      · exact hqs o (by simp [ho])

lemma matchLoop_side_invariants : ∀ (fuel : Nat) (buys sells : List Order)
    {Rb Rs : Order → Order → Prop} {Pb Ps : Order → Prop},
    (∀ a c q, Rb a c → Rb { a with quantity := q } c) →
    (∀ a c q, Rs a c → Rs { a with quantity := q } c) →
    (∀ a q, Pb a → Pb { a with quantity := q }) →
    (∀ a q, Ps a → Ps { a with quantity := q }) →
    buys.Pairwise Rb → sells.Pairwise Rs →
    (∀ o ∈ buys, Pb o) → (∀ o ∈ sells, Ps o) →
    (matchLoop fuel buys sells).1.Pairwise Rb ∧
    (matchLoop fuel buys sells).2.1.Pairwise Rs ∧
    (∀ o ∈ (matchLoop fuel buys sells).1, Pb o) ∧
    (∀ o ∈ (matchLoop fuel buys sells).2.1, Ps o) := by
  intro fuel
  induction fuel with
  | zero =>
    intro buys sells Rb Rs Pb Ps _ _ _ _ hpb hps hqb hqs
    rw [matchLoop_zero]
    exact ⟨hpb, hps, hqb, hqs⟩
  | succ f ih =>
    intro buys sells Rb Rs Pb Ps hRb hRs hPb hPs hpb hps hqb hqs
    cases h : matchStep buys sells with
    | none =>
      rw [matchLoop_succ_none f h]
      exact ⟨hpb, hps, hqb, hqs⟩
    | some r =>
      obtain ⟨B, S, t⟩ := r
      rw [matchLoop_succ_some f h]
      obtain ⟨h1, h2, h3, h4⟩ :=
        matchStep_side_invariants h hRb hRs hPb hPs hpb hps hqb hqs
      exact ih B S hRb hRs hPb hPs h1 h2 h3 h4

/-- After `addOrder` of a freshest-stamp order into a book whose sides are
in key-priority order: both sides are still in key-priority order, and
every resident stamp is at most the new order's stamp. -/
lemma addOrder_sorted {o : Order} {b : Book}
    (hpb : b.bids.Pairwise (keyPriority keyBid))
    (hpa : b.asks.Pairwise (keyPriority keyAsk))
    (hsb : ∀ y ∈ b.bids, y.stamp < o.stamp)
    (hsa : ∀ y ∈ b.asks, y.stamp < o.stamp) :
    (addOrder o b).1.bids.Pairwise (keyPriority keyBid) ∧
    (addOrder o b).1.asks.Pairwise (keyPriority keyAsk) ∧
    (∀ y ∈ (addOrder o b).1.bids, y.stamp ≤ o.stamp) ∧
    (∀ y ∈ (addOrder o b).1.asks, y.stamp ≤ o.stamp) := by
  have hbook : (addOrderBook o b).bids.Pairwise (keyPriority keyBid) ∧
      (addOrderBook o b).asks.Pairwise (keyPriority keyAsk) ∧
      (∀ y ∈ (addOrderBook o b).bids, y.stamp ≤ o.stamp) ∧
      (∀ y ∈ (addOrderBook o b).asks, y.stamp ≤ o.stamp) := by
    cases ho : o.side <;> simp only [addOrderBook, ho]
    · refine ⟨?_, hpa, ?_, fun y hy => le_of_lt (hsa y hy)⟩
      · rw [sortByKey_append,
          sortByKey_of_sorted bidLe b.bids (pairwise_le_of_keyPriority keyBid bidLe bidLe_iff hpb)]
        exact stableInsert_pairwise keyBid bidLe bidLe_iff o b.bids hpb hsb
      · intro y hy
        rw [mem_sortByKey, List.mem_append, List.mem_singleton] at hy
        rcases hy with hy | rfl
        · exact le_of_lt (hsb y hy)
        · exact le_refl _
    · refine ⟨hpb, ?_, fun y hy => le_of_lt (hsb y hy), ?_⟩
      · rw [sortByKey_append,
          sortByKey_of_sorted askLe b.asks (pairwise_le_of_keyPriority keyAsk askLe askLe_iff hpa)]
        exact stableInsert_pairwise keyAsk askLe askLe_iff o b.asks hpa hsa
      · intro y hy
        rw [mem_sortByKey, List.mem_append, List.mem_singleton] at hy
        rcases hy with hy | rfl
        · exact le_of_lt (hsa y hy)
        · exact le_refl _
  obtain ⟨h1, h2, h3, h4⟩ := hbook
  exact matchLoop_side_invariants (bookFuel (addOrderBook o b))
    (addOrderBook o b).bids (addOrderBook o b).asks
    (fun _ _ _ hr => hr) (fun _ _ _ hr => hr) (fun _ _ hp => hp) (fun _ _ hp => hp)
    h1 h2 h3 h4

/-- Sorted-books invariant: every slot's bids and asks are in key-priority
order and every resident stamp is below the next stamp to be issued. -/
def sortedInv (u : Universe) (n : Nat) : Prop :=
  ∀ i, (u i).bids.Pairwise (keyPriority keyBid) ∧
    (u i).asks.Pairwise (keyPriority keyAsk) ∧
    (∀ o ∈ (u i).bids, o.stamp < n) ∧ (∀ o ∈ (u i).asks, o.stamp < n)

lemma sortedInv_init : sortedInv initUniverse 0 := by
  intro i
  exact ⟨List.Pairwise.nil, List.Pairwise.nil,
    fun o h => absurd h (List.not_mem_nil o), fun o h => absurd h (List.not_mem_nil o)⟩

lemma sortedInv_submitOne {u : Universe} {spec : OrderSpec} {n : Nat}
    (h : sortedInv u n) : sortedInv (submitOne u spec n) (n + 1) := by
  intro i
  simp only [submitOne]
  split
  · obtain ⟨h1, h2, h3, h4⟩ := h (spec.slot % NUM_TICKERS)
    obtain ⟨g1, g2, g3, g4⟩ :=
      @addOrder_sorted ⟨spec.side, spec.slot % NUM_TICKERS, spec.quantity, spec.price, n⟩
        (u (spec.slot % NUM_TICKERS)) h1 h2 h3 h4
    exact ⟨g1, g2, fun o ho => Nat.lt_succ_of_le (g3 o ho),
      fun o ho => Nat.lt_succ_of_le (g4 o ho)⟩
  · obtain ⟨h1, h2, h3, h4⟩ := h i
    exact ⟨h1, h2, fun o ho => Nat.lt_succ_of_lt (h3 o ho),
      fun o ho => Nat.lt_succ_of_lt (h4 o ho)⟩

lemma sortedInv_submitAll : ∀ (specs : List OrderSpec) (u : Universe) (n : Nat),
    sortedInv u n → sortedInv (submitAll u specs n) (n + specs.length) := by
  intro specs
  induction specs with
  | nil => intro u n h; simpa using h
  | cons sp rest ih =>
    intro u n h
    have := ih (submitOne u sp n) (n + 1) (sortedInv_submitOne h)
    have harith : n + 1 + rest.length = n + (sp :: rest).length := by
      simp [List.length_cons]
      omega
    rw [harith] at this
    exact this

/-! ### Claim theorems: book ordering and validation -/

/-- C3: after any sequence of `addOrder` submissions from the empty
universe, every slot's bids are sorted by price descending and asks by
price ascending, with ties broken by insertion order (earlier stamp
first) — the stable-sort/time-priority invariant, which is what makes the
earliest order at the best price match first (matching always takes the
front of the list). -/
theorem submit_books_sorted (specs : List OrderSpec) (i : Nat) :
    ((submitAll initUniverse specs 0) i).bids.Pairwise bidPrec ∧
    ((submitAll initUniverse specs 0) i).asks.Pairwise askPrec := by
  obtain ⟨h1, h2, _, _⟩ := sortedInv_submitAll specs initUniverse 0 sortedInv_init i
  exact ⟨h1.imp (fun hab => (keyPriority_keyBid_iff _ _).mp hab),
    h2.imp (fun hab => (keyPriority_keyAsk_iff _ _).mp hab)⟩

/-- Counterexample for C4: `addOrder` performs no validation — an order
with quantity 0 and price −5 is accepted and sits resident in slot 7's
bids after the submission returns. -/
theorem addOrder_accepts_invalid :
    (⟨Side.Buy, 7, 0, -5, 0⟩ : Order) ∈
      ((submitOne initUniverse ⟨Side.Buy, 7, 0, -5⟩ 0) 7).bids ∧
    ¬ (1 ≤ (⟨Side.Buy, 7, 0, -5, 0⟩ : Order).quantity) ∧
    (⟨Side.Buy, 7, 0, -5, 0⟩ : Order).price < 0 := by
  decide

/-- C4 (amended): `addOrder` never rejects an order — whatever its quantity
or price, the order is inserted into its side's list before matching runs,
and when the opposite side is empty (so no match can consume it) it remains
resident after `addOrder` returns. -/
theorem addOrder_no_validation (o : Order) (b : Book) :
    (o.side = Side.Buy → o ∈ (addOrderBook o b).bids) ∧
    (o.side = Side.Sell → o ∈ (addOrderBook o b).asks) ∧
    (o.side = Side.Buy → b.asks = [] → o ∈ (addOrder o b).1.bids) ∧
    (o.side = Side.Sell → b.bids = [] → o ∈ (addOrder o b).1.asks) := by
  refine ⟨?_, ?_, ?_, ?_⟩
  · intro h
    simp only [addOrderBook, h]
    rw [mem_sortByKey]
    simp
  · intro h
    simp only [addOrderBook, h]
    rw [mem_sortByKey]
    simp
  · intro h he
    have hasks : (addOrderBook o b).asks = [] := by
      simp only [addOrderBook, h]
      exact he
    rw [addOrder, matchOrder_of_fixed (by rw [hasks]; exact matchStep_nil_right _)]
    simp only [addOrderBook, h]
    rw [mem_sortByKey]
    simp
  · intro h he
    have hbids : (addOrderBook o b).bids = [] := by
      simp only [addOrderBook, h]
      exact he
    rw [addOrder, matchOrder_of_fixed (by rw [hbids]; exact matchStep_nil_left _)]
    simp only [addOrderBook, h]
    rw [mem_sortByKey]
    simp

/-- Witness for C4 (amended): the invalid zero-quantity, negative-price buy
order stays resident in the bids of an empty book. -/
theorem addOrder_no_validation_witness :
    (⟨Side.Buy, 7, 0, -5, 0⟩ : Order).side = Side.Buy ∧ emptyBook.asks = [] ∧
    (⟨Side.Buy, 7, 0, -5, 0⟩ : Order) ∈
      (addOrder ⟨Side.Buy, 7, 0, -5, 0⟩ emptyBook).1.bids :=
  ⟨rfl, rfl, (addOrder_no_validation ⟨Side.Buy, 7, 0, -5, 0⟩ emptyBook).2.2.1 rfl rfl⟩

/-! ### Worker draws -/

lemma workerStep_fst (t : Nat) :
    (workerStep t).1 =
      ⟨(if lcgNext t < LCG_MODULUS / 2 then Side.Buy else Side.Sell),
        lcgNext (lcgNext t) % NUM_TICKERS,
        lcgNext (lcgNext (lcgNext t)) % 100 + 1,
        lcgNext (lcgNext (lcgNext (lcgNext t))) % 991 + 10⟩ := rfl

lemma workerStep_snd (t : Nat) :
    (workerStep t).2 = lcgNext (lcgNext (lcgNext (lcgNext t))) := rfl

lemma workerDraws_get : ∀ (k n s : Nat), k < n →
    (workerDraws n s)[k]? = some (workerStep (lcgNext^[4 * k] s)).1 := by
  intro k
  induction k with
  | zero =>
    intro n s h
    match n with
    | m + 1 => simp [workerDraws]
  | succ k ih =>
    intro n s h
    match n with
    | m + 1 =>
      have hcons : workerDraws (m + 1) s = (workerStep s).1 :: workerDraws m (workerStep s).2 :=
        rfl
      rw [hcons, List.getElem?_cons_succ, ih m _ (by omega), workerStep_snd]
      have h4 : lcgNext (lcgNext (lcgNext (lcgNext s))) = lcgNext^[4] s := rfl
      have harith : 4 * (k + 1) = 4 * k + 4 := by ring
      rw [h4, ← Function.iterate_add_apply, harith]

/-- C5 (amended): the ticker index, quantity and price are each obtained
from the freshly advanced seed by a modulo (plus the fixed offsets 1 and
10), but the Buy/Sell side is not obtained by a modulo: it is Buy exactly
when the new seed is below `LCG_MODULUS // 2` (a high-bit threshold), not a
function of `new_seed mod 2`. -/
theorem worker_derivation_rule (s : Nat) :
    ((workerStep s).1.side = Side.Buy ↔ lcgNext s < LCG_MODULUS / 2) ∧
    (workerStep s).1.tickerIndex = lcgNext (lcgNext s) % NUM_TICKERS ∧
    (workerStep s).1.quantity = lcgNext (lcgNext (lcgNext s)) % 100 + 1 ∧
    (workerStep s).1.price = lcgNext (lcgNext (lcgNext (lcgNext s))) % 991 + 10 := by
  rw [workerStep_fst]
  refine ⟨?_, rfl, rfl, rfl⟩
  by_cases h : lcgNext s < LCG_MODULUS / 2
  · rw [if_pos h]
    exact iff_of_true rfl h
  · rw [if_neg h]
    exact iff_of_false (by simp) h

/-- Counterexample for C5: seeds 0 and 38 give new seeds 12345 and
1131402343 — equal modulo 2 (both odd) — yet the chosen sides differ
(Buy vs Sell), so the side is not determined by `new_seed mod 2`. -/
theorem worker_side_not_mod2 :
    lcgNext 0 % 2 = lcgNext 38 % 2 ∧
    (workerStep 0).1.side ≠ (workerStep 38).1.side := by
  decide

/-- C6: the stream advances by `new_seed = (1103515245*s + 12345) mod 2^31`;
each trader's stream starts from `123456789 + trader_index`; and the k-th
transaction of a trader draws the four consecutive stream values
`4k+1, 4k+2, 4k+3, 4k+4` (counting advances from the initial seed), in the
order side, instrument-slot selection, quantity, price. -/
theorem worker_draw_schedule :
    (∀ seed : Nat, lcgNext seed = (1103515245 * seed + 12345) % 2 ^ 31) ∧
    (∀ workerId : Nat, workerInitSeed workerId = 123456789 + workerId) ∧
    (∀ (workerId n k : Nat), k < n →
      (workerDraws n (workerInitSeed workerId))[k]? =
        some ⟨(if lcgNext^[4 * k + 1] (123456789 + workerId) < LCG_MODULUS / 2
                then Side.Buy else Side.Sell),
              lcgNext^[4 * k + 2] (123456789 + workerId) % NUM_TICKERS,
              lcgNext^[4 * k + 3] (123456789 + workerId) % 100 + 1,
              lcgNext^[4 * k + 4] (123456789 + workerId) % 991 + 10⟩) := by
  refine ⟨fun _ => rfl, fun _ => rfl, ?_⟩
  intro w n k hk
  rw [workerDraws_get k n (workerInitSeed w) hk, workerStep_fst]
  have e2 : 4 * k + 1 + 1 = 4 * k + 2 := by omega
  have e3 : 4 * k + 2 + 1 = 4 * k + 3 := by omega
  have e4 : 4 * k + 3 + 1 = 4 * k + 4 := by omega
  simp only [← Function.iterate_succ_apply' lcgNext]
  rw [e2, e3, e4]
  rfl

/-- Witness for C6: worker 0's first transaction uses stream values 1–4. -/
theorem worker_draw_schedule_witness :
    0 < 1 ∧
    (workerDraws 1 (workerInitSeed 0))[0]? =
      some ⟨(if lcgNext^[4 * 0 + 1] (123456789 + 0) < LCG_MODULUS / 2
              then Side.Buy else Side.Sell),
            lcgNext^[4 * 0 + 2] (123456789 + 0) % NUM_TICKERS,
            lcgNext^[4 * 0 + 3] (123456789 + 0) % 100 + 1,
            lcgNext^[4 * 0 + 4] (123456789 + 0) % 991 + 10⟩ :=
  ⟨by decide, worker_draw_schedule.2.2 0 1 0 (by decide)⟩

/-- C7: every generated order has quantity in 1..100 and price in 10..1000
(inclusive), and all four bounds are attained at concrete seeds. -/
theorem worker_qty_price_bounds :
    (∀ s : Nat, 1 ≤ (workerStep s).1.quantity ∧ (workerStep s).1.quantity ≤ 100 ∧
      10 ≤ (workerStep s).1.price ∧ (workerStep s).1.price ≤ 1000) ∧
    (∃ s, (workerStep s).1.quantity = 1) ∧ (∃ s, (workerStep s).1.quantity = 100) ∧
    (∃ s, (workerStep s).1.price = 10) ∧ (∃ s, (workerStep s).1.price = 1000) := by
  refine ⟨?_, ⟨25, by decide⟩, ⟨36, by decide⟩, ⟨759, by decide⟩, ⟨218, by decide⟩⟩
  intro s
  have hq : (workerStep s).1.quantity = lcgNext (lcgNext (lcgNext s)) % 100 + 1 := rfl
  have hp : (workerStep s).1.price = lcgNext (lcgNext (lcgNext (lcgNext s))) % 991 + 10 := rfl
  rw [hq, hp]
  have h1 : lcgNext (lcgNext (lcgNext s)) % 100 < 100 := Nat.mod_lt _ (by decide)
  have h2 : lcgNext (lcgNext (lcgNext (lcgNext s))) % 991 < 991 := Nat.mod_lt _ (by decide)
  omega
